import Mathlib

/-!
# Verification of the Wasabi storage bot's transfer engine

A shallow embedding of the core logic of the repository
(`deepseek_python_20250927_ffcff5.py`, `bot.py`, `utils/security.py`,
`utils/helpers.py`, `progress.py`) and proofs of the specification's
testable properties over that embedding.

File contents are modelled as `List Nat` (byte values), strings as
`List Char`, wall-clock time as natural numbers (milliseconds where
sub-second precision matters, seconds elsewhere), and backend (S3)
interactions as explicit traces of issued calls.
-/

namespace WasabiBot

/-- `CHUNK_SIZE = 8 * 1024 * 1024` from `deepseek_python_20250927_ffcff5.py`. -/
def CHUNK_SIZE : Nat := 8 * 1024 * 1024

/-- The 5 MiB lower bound on multipart part size used in
`S3Manager.multipart_upload`. -/
def MIN_PART_SIZE : Nat := 5 * 1024 * 1024

/-- The 100 MiB threshold in `S3Manager.upload_file` above which the
multipart path is taken. -/
def MULTIPART_THRESHOLD : Nat := 100 * 1024 * 1024

/-- `part_size = min(max(file_size // 50, 5 * 1024 * 1024), CHUNK_SIZE)`
from `S3Manager.multipart_upload`. -/
def part_size (file_size : Nat) : Nat :=
  min (max (file_size / 50) MIN_PART_SIZE) CHUNK_SIZE

/-- The sequence of chunks produced by the `while True: chunk = file.read(part_size)`
loop in `S3Manager.multipart_upload`: successive `take ps`/`drop ps` slices of the
file content until the read returns the empty chunk. `file.read(0)` returns an
empty chunk in Python, so a zero part size yields no parts. -/
def chunksOf (ps : Nat) (data : List Nat) : List (List Nat) :=
  if h : ps = 0 ∨ data = [] then []
  else data.take ps :: chunksOf ps (data.drop ps)
termination_by data.length
decreasing_by
  push_neg at h
  obtain ⟨hps, hdata⟩ := h
  have h1 : 0 < ps := Nat.pos_of_ne_zero hps
  have h2 : 0 < data.length := List.length_pos.mpr hdata
  simp [List.length_drop]
  omega

theorem chunksOf_nil (ps : Nat) : chunksOf ps [] = [] := by
  rw [chunksOf]; simp

theorem chunksOf_zero (data : List Nat) : chunksOf 0 data = [] := by
  rw [chunksOf]; simp

theorem chunksOf_cons (ps : Nat) (data : List Nat) (hps : ps ≠ 0) (hd : data ≠ []) :
    chunksOf ps data = data.take ps :: chunksOf ps (data.drop ps) := by
  rw [chunksOf]
  simp [hps, hd]

/-- Concatenating the read chunks restores the file content. -/
theorem chunksOf_flatten (ps : Nat) (data : List Nat) (hps : ps ≠ 0) :
    (chunksOf ps data).flatten = data := by
  induction data using chunksOf.induct ps with
  | case1 data h =>
    rcases h with h | h
    · exact absurd h hps
    · subst h; simp [chunksOf_nil]
  | case2 data h ih =>
    push_neg at h
    rw [chunksOf_cons ps data hps h.2]
    simp [ih, List.take_append_drop]

/-- The `i`-th chunk read by the loop is exactly the byte range
`[i * ps, i * ps + ps)` of the file (clipped at end of file): the
chunks are the consecutive, non-overlapping slices of the content. -/
theorem chunksOf_eq_map (ps : Nat) (data : List Nat) (hps : ps ≠ 0) :
    chunksOf ps data =
      (List.range (chunksOf ps data).length).map
        (fun i => (data.drop (i * ps)).take ps) := by
  induction data using chunksOf.induct ps with
  | case1 data h =>
    rcases h with h | h
    · exact absurd h hps
    · subst h
      rw [chunksOf_nil]
      simp
  | case2 data h ih =>
    push_neg at h
    rw [chunksOf_cons ps data hps h.2]
    simp only [List.length_cons, List.range_succ_eq_map, List.map_cons, List.map_map]
    congr 1
    · simp
    · rw [ih]
      simp only [List.length_map, List.length_range]
      apply List.map_congr_left
      intro i _
      simp only [Function.comp_apply]
      rw [List.drop_drop]
      congr 2
      rw [Nat.succ_eq_add_one]
      ring

/-- The sum of the chunk lengths is exactly the total size. -/
theorem chunksOf_sum_lengths (ps : Nat) (data : List Nat) (hps : ps ≠ 0) :
    ((chunksOf ps data).map List.length).sum = data.length := by
  have h := chunksOf_flatten ps data hps
  calc ((chunksOf ps data).map List.length).sum
      = (chunksOf ps data).flatten.length := by rw [List.length_flatten]
    _ = data.length := by rw [h]

/-! ## Trace model of the S3 client calls

`S3Manager.multipart_upload` (and `HighPerformanceS3.upload_file_chunked`,
which has the identical control structure with a fixed part size) issues
`create_multipart_upload`, `upload_part`, `complete_multipart_upload` and
`abort_multipart_upload` calls against the boto3 client.  We record each
issued call in a trace.  A part-upload failure oracle `partFails` says
which `upload_part` calls raise an exception. -/

/-- One issued boto3 S3 call. -/
inductive S3Call where
  | create (uploadId : Nat)
  | uploadPart (uploadId partNumber : Nat) (body : List Nat)
  | complete (uploadId : Nat) (partNumbers : List Nat)
  | abort (uploadId : Nat)
  | put (body : List Nat)
deriving DecidableEq, Repr

/-- The `while True: chunk = file.read(part_size)` part-upload loop of
`S3Manager.multipart_upload`.  Returns the issued `upload_part` calls, the
recorded `parts` list (part numbers), and whether the loop ran to
completion (`true`) or an `upload_part` call raised (`false`). -/
def uploadPartsLoop (uid ps : Nat) (partFails : Nat → Bool) :
    List Nat → Nat → List S3Call × List Nat × Bool
  | data, pn =>
    if h : ps = 0 ∨ data = [] then ([], [], true)
    else
      let call := S3Call.uploadPart uid pn (data.take ps)
      if partFails pn then ([call], [], false)
      else
        let rest := uploadPartsLoop uid ps partFails (data.drop ps) (pn + 1)
        (call :: rest.1, pn :: rest.2.1, rest.2.2)
termination_by data _ => data.length
decreasing_by
  push_neg at h
  obtain ⟨hps, hdata⟩ := h
  have h1 : 0 < ps := Nat.pos_of_ne_zero hps
  have h2 : 0 < data.length := List.length_pos.mpr hdata
  simp [List.length_drop]
  omega

/-- `S3Manager.multipart_upload`: create the multipart upload, run the
part loop; on success issue `complete_multipart_upload`, on a part
failure issue `abort_multipart_upload` and re-raise.  Returns the full
trace of issued calls and whether the function returned normally. -/
def multipart_upload (uid ps : Nat) (data : List Nat) (partFails : Nat → Bool) :
    List S3Call × Bool :=
  let r := uploadPartsLoop uid ps partFails data 1
  if r.2.2 then
    (S3Call.create uid :: r.1 ++ [S3Call.complete uid r.2.1], true)
  else
    (S3Call.create uid :: r.1 ++ [S3Call.abort uid], false)

/-- `S3Manager.upload_file`: files over 100 MiB go through
`multipart_upload`; smaller files are a single `upload_fileobj` put. -/
def upload_file (uid : Nat) (data : List Nat) (partFails : Nat → Bool) :
    List S3Call × Bool :=
  if data.length > MULTIPART_THRESHOLD then
    multipart_upload uid (part_size data.length) data partFails
  else
    ([S3Call.put data], true)

/-- The bodies of the `upload_part` calls in a trace. -/
def partBodies (tr : List S3Call) : List (List Nat) :=
  tr.filterMap fun c =>
    match c with
    | S3Call.uploadPart _ _ body => some body
    | _ => none

/-- The part numbers of the `upload_part` calls in a trace. -/
def tracePartNumbers (tr : List S3Call) : List Nat :=
  tr.filterMap fun c =>
    match c with
    | S3Call.uploadPart _ pn _ => some pn
    | _ => none

/-- Number of `abort_multipart_upload` calls for a given upload id. -/
def abortCount (uid : Nat) (tr : List S3Call) : Nat :=
  (tr.filter fun c =>
    match c with
    | S3Call.abort u => u = uid
    | _ => false).length

/-- Number of `complete_multipart_upload` calls for a given upload id. -/
def completeCount (uid : Nat) (tr : List S3Call) : Nat :=
  (tr.filter fun c =>
    match c with
    | S3Call.complete u _ => u = uid
    | _ => false).length

/-! ## Backend state machine

The state a single S3 backend is left in after processing a trace of
issued calls: the stored object content, plus the pending (incomplete)
multipart upload session, if any. -/

/-- Backend state: stored object (if any) and the pending multipart
session (upload id plus parts received so far, in order). -/
structure Backend where
  stored : Option (List Nat)
  pending : Option (Nat × List (List Nat))
deriving DecidableEq, Repr

def Backend.init : Backend := ⟨none, none⟩

/-- Effect of one issued call on the backend. -/
def applyCall (b : Backend) : S3Call → Backend
  | S3Call.put body => { b with stored := some body }
  | S3Call.create uid => { b with pending := some (uid, []) }
  | S3Call.uploadPart uid _ body =>
      match b.pending with
      | some (u, parts) =>
          if u = uid then { b with pending := some (u, parts ++ [body]) } else b
      | none => b
  | S3Call.complete uid _ =>
      match b.pending with
      | some (u, parts) =>
          if u = uid then { stored := some parts.flatten, pending := none } else b
      | none => b
  | S3Call.abort uid =>
      match b.pending with
      | some (u, _) =>
          if u = uid then { b with pending := none } else b
      | none => b

/-- Run a trace of issued calls against a backend. -/
def runCalls (b : Backend) (tr : List S3Call) : Backend :=
  tr.foldl applyCall b

theorem runCalls_append (b : Backend) (tr1 tr2 : List S3Call) :
    runCalls b (tr1 ++ tr2) = runCalls (runCalls b tr1) tr2 :=
  List.foldl_append ..

/-! ## Structure of the part-upload loop -/

/-- Every call issued by the part loop is an `upload_part` for this upload id. -/
theorem uploadPartsLoop_calls_shape (uid ps : Nat) (pf : Nat → Bool) :
    ∀ data pn, ∀ c ∈ (uploadPartsLoop uid ps pf data pn).1,
      ∃ k body, c = S3Call.uploadPart uid k body := by
  intro data pn
  induction data, pn using uploadPartsLoop.induct uid ps pf with
  | case1 data pn h =>
    rw [uploadPartsLoop]
    simp [h]
  | case2 data pn h hfail =>
    rw [uploadPartsLoop]
    simp only [h, dite_false, hfail, if_true, List.mem_singleton]
    rintro c rfl
    exact ⟨pn, data.take ps, rfl⟩
  | case3 data pn h hfail ih =>
    rw [uploadPartsLoop]
    simp only [h, dite_false, hfail, Bool.false_eq_true, if_false, List.mem_cons]
    rintro c (rfl | hc)
    · exact ⟨pn, data.take ps, rfl⟩
    · exact ih c hc

/-- When no part-upload call fails, the loop runs to completion, the
submitted bodies are exactly the `chunksOf` slices and the recorded part
numbers are consecutive starting from `pn`. -/
theorem uploadPartsLoop_noFail (uid ps : Nat) :
    ∀ data pn,
      (uploadPartsLoop uid ps (fun _ => false) data pn).2.2 = true ∧
      partBodies (uploadPartsLoop uid ps (fun _ => false) data pn).1 = chunksOf ps data ∧
      (uploadPartsLoop uid ps (fun _ => false) data pn).2.1 =
        List.range' pn (chunksOf ps data).length ∧
      tracePartNumbers (uploadPartsLoop uid ps (fun _ => false) data pn).1 =
        List.range' pn (chunksOf ps data).length := by
  intro data pn
  induction data, pn using uploadPartsLoop.induct uid ps (fun _ => false) with
  | case1 data pn h =>
    rw [uploadPartsLoop]
    rcases h with h | h
    · simp [h, partBodies, tracePartNumbers, chunksOf_zero]
    · simp [h, partBodies, tracePartNumbers, chunksOf_nil]
  | case2 data pn h hfail =>
    simp at hfail
  | case3 data pn h hfail ih =>
    push_neg at h
    rw [uploadPartsLoop]
    simp only [h.1, h.2, or_self, dite_false, Bool.false_eq_true, if_false]
    refine ⟨ih.1, ?_, ?_, ?_⟩
    · rw [chunksOf_cons ps data h.1 h.2]
      simp [partBodies] at ih ⊢
      exact ih.2.1
    · rw [chunksOf_cons ps data h.1 h.2]
      simp only [List.length_cons, List.range'_succ]
      simp only [ih.2.2.1]
    · rw [chunksOf_cons ps data h.1 h.2]
      simp only [List.length_cons, List.range'_succ]
      simp [tracePartNumbers] at ih ⊢
      exact ih.2.2.2

/-- Running a block of `upload_part` calls for the pending session
appends their bodies, in order, to the session's part list. -/
theorem runCalls_parts (uid : Nat) (s : Option (List Nat)) :
    ∀ (calls : List S3Call) (acc : List (List Nat)),
      (∀ c ∈ calls, ∃ k body, c = S3Call.uploadPart uid k body) →
      runCalls ⟨s, some (uid, acc)⟩ calls = ⟨s, some (uid, acc ++ partBodies calls)⟩ := by
  intro calls
  induction calls with
  | nil => intro acc _; simp [runCalls, partBodies]
  | cons c rest ih =>
    intro acc h
    obtain ⟨k, body, rfl⟩ := h c (List.mem_cons_self c rest)
    have hstep : applyCall ⟨s, some (uid, acc)⟩ (S3Call.uploadPart uid k body) =
        ⟨s, some (uid, acc ++ [body])⟩ := by
      simp [applyCall]
    show runCalls (applyCall ⟨s, some (uid, acc)⟩ (S3Call.uploadPart uid k body)) rest = _
    rw [hstep, ih (acc ++ [body]) (fun c hc => h c (List.mem_cons_of_mem _ hc))]
    simp [partBodies]

theorem abortCount_of_parts (uid : Nat) (calls : List S3Call)
    (h : ∀ c ∈ calls, ∃ k body, c = S3Call.uploadPart uid k body) (last : S3Call) :
    abortCount uid (S3Call.create uid :: calls ++ [last]) =
      abortCount uid [last] := by
  unfold abortCount
  rw [List.filter_cons, List.filter_append]
  have hnil : calls.filter (fun c =>
      match c with
      | S3Call.abort u => u = uid
      | _ => false) = [] := by
    rw [List.filter_eq_nil_iff]
    intro c hc
    obtain ⟨k, body, rfl⟩ := h c hc
    simp
  simp [hnil, List.filter_singleton, Bool.cond_eq_ite]

theorem completeCount_of_parts (uid : Nat) (calls : List S3Call)
    (h : ∀ c ∈ calls, ∃ k body, c = S3Call.uploadPart uid k body) (last : S3Call) :
    completeCount uid (S3Call.create uid :: calls ++ [last]) =
      completeCount uid [last] := by
  unfold completeCount
  rw [List.filter_cons, List.filter_append]
  have hnil : calls.filter (fun c =>
      match c with
      | S3Call.complete u _ => u = uid
      | _ => false) = [] := by
    rw [List.filter_eq_nil_iff]
    intro c hc
    obtain ⟨k, body, rfl⟩ := h c hc
    simp
  simp [hnil, List.filter_singleton, Bool.cond_eq_ite]

theorem partBodies_trace_ok (uid : Nat) (pns : List Nat) (tr : List S3Call) :
    partBodies ((S3Call.create uid :: tr) ++ [S3Call.complete uid pns]) = partBodies tr := by
  simp [partBodies]

theorem tracePartNumbers_trace_ok (uid : Nat) (pns : List Nat) (tr : List S3Call) :
    tracePartNumbers ((S3Call.create uid :: tr) ++ [S3Call.complete uid pns])
      = tracePartNumbers tr := by
  simp [tracePartNumbers]

/-- After a full multipart trace the backend holds no pending multipart
session, and in the successful case it stores the concatenation of the
submitted part bodies. -/
theorem runCalls_multipart (uid ps : Nat) (data : List Nat) (pf : Nat → Bool) :
    runCalls Backend.init (multipart_upload uid ps data pf).1 =
      if (uploadPartsLoop uid ps pf data 1).2.2 then
        ⟨some (partBodies (uploadPartsLoop uid ps pf data 1).1).flatten, none⟩
      else
        ⟨none, none⟩ := by
  have hshape := uploadPartsLoop_calls_shape uid ps pf data 1
  unfold multipart_upload
  by_cases hok : (uploadPartsLoop uid ps pf data 1).2.2
  · simp only [hok, if_true]
    show runCalls Backend.init
        (S3Call.create uid :: ((uploadPartsLoop uid ps pf data 1).1 ++ [S3Call.complete uid _])) = _
    rw [show (S3Call.create uid :: ((uploadPartsLoop uid ps pf data 1).1 ++ [S3Call.complete uid (uploadPartsLoop uid ps pf data 1).2.1])) =
        ([S3Call.create uid] ++ (uploadPartsLoop uid ps pf data 1).1) ++ [S3Call.complete uid (uploadPartsLoop uid ps pf data 1).2.1] by simp]
    rw [runCalls_append, runCalls_append]
    have h1 : runCalls Backend.init [S3Call.create uid] = ⟨none, some (uid, [])⟩ := by
      simp [runCalls, applyCall, Backend.init]
    rw [h1, runCalls_parts uid none _ [] hshape]
    simp [runCalls, applyCall]
  · simp only [hok, if_false]
    show runCalls Backend.init
        (S3Call.create uid :: ((uploadPartsLoop uid ps pf data 1).1 ++ [S3Call.abort uid])) = _
    rw [show (S3Call.create uid :: ((uploadPartsLoop uid ps pf data 1).1 ++ [S3Call.abort uid])) =
        ([S3Call.create uid] ++ (uploadPartsLoop uid ps pf data 1).1) ++ [S3Call.abort uid] by simp]
    rw [runCalls_append, runCalls_append]
    have h1 : runCalls Backend.init [S3Call.create uid] = ⟨none, some (uid, [])⟩ := by
      simp [runCalls, applyCall, Backend.init]
    rw [h1, runCalls_parts uid none _ [] hshape]
    simp [runCalls, applyCall]

/-- C1 — For every file, the multipart part size is
`min(max(file_size // 50, 5 MiB), CHUNK_SIZE)` (i.e. `clamp(total/50, 5 MiB, 8 MiB)`);
the parts submitted by `S3Manager.multipart_upload` carry 1-based consecutive
part numbers; the `i`-th part body is exactly the byte slice
`[i*part_size, i*part_size + part_size)` of the file (clipped at end of file, so
ranges are contiguous and non-overlapping and the final part takes the
remainder); the part lengths sum exactly to the total size and their
concatenation is the file; and `S3Manager.upload_file` performs a single
atomic put with no multipart call whenever the size is at or below the
100 MiB threshold. -/
theorem c1_chunk_plan (uid : Nat) (data : List Nat) :
    part_size data.length
        = min (max (data.length / 50) (5 * 1024 * 1024)) (8 * 1024 * 1024) ∧
    tracePartNumbers (multipart_upload uid (part_size data.length) data (fun _ => false)).1
        = List.range' 1
            (partBodies (multipart_upload uid (part_size data.length) data (fun _ => false)).1).length ∧
    partBodies (multipart_upload uid (part_size data.length) data (fun _ => false)).1
        = (List.range
            (partBodies (multipart_upload uid (part_size data.length) data (fun _ => false)).1).length).map
            (fun i => (data.drop (i * part_size data.length)).take (part_size data.length)) ∧
    ((partBodies (multipart_upload uid (part_size data.length) data (fun _ => false)).1).map
        List.length).sum = data.length ∧
    (partBodies (multipart_upload uid (part_size data.length) data (fun _ => false)).1).flatten
        = data ∧
    (data.length ≤ MULTIPART_THRESHOLD →
      upload_file uid data (fun _ => false) = ([S3Call.put data], true)) := by
  have hps : part_size data.length ≠ 0 := by
    have h5 : 5 * 1024 * 1024 ≤ part_size data.length := by
      unfold part_size MIN_PART_SIZE CHUNK_SIZE
      omega
    omega
  have hloop := uploadPartsLoop_noFail uid (part_size data.length) data 1
  have hbodies : partBodies (multipart_upload uid (part_size data.length) data (fun _ => false)).1
      = chunksOf (part_size data.length) data := by
    unfold multipart_upload
    simp only [hloop.1, if_true]
    rw [partBodies_trace_ok]
    exact hloop.2.1
  have hnums : tracePartNumbers (multipart_upload uid (part_size data.length) data (fun _ => false)).1
      = List.range' 1 (chunksOf (part_size data.length) data).length := by
    unfold multipart_upload
    simp only [hloop.1, if_true]
    rw [tracePartNumbers_trace_ok]
    exact hloop.2.2.2
  refine ⟨rfl, ?_, ?_, ?_, ?_, ?_⟩
  · rw [hnums, hbodies]
  · rw [hbodies]
    exact chunksOf_eq_map _ data hps
  · rw [hbodies]
    exact chunksOf_sum_lengths _ data hps
  · rw [hbodies]
    exact chunksOf_flatten _ data hps
  · intro hle
    unfold upload_file
    rw [if_neg (by omega)]

/-- Witness for C1 at a concrete three-byte file: the plan facts and the
single-put branch evaluate as stated. -/
theorem c1_chunk_plan_witness :
    tracePartNumbers (multipart_upload 0 (part_size 3) [1, 2, 3] (fun _ => false)).1
        = List.range' 1
            (partBodies (multipart_upload 0 (part_size 3) [1, 2, 3] (fun _ => false)).1).length ∧
    (partBodies (multipart_upload 0 (part_size 3) [1, 2, 3] (fun _ => false)).1).flatten
        = [1, 2, 3] ∧
    upload_file 0 [1, 2, 3] (fun _ => false) = ([S3Call.put [1, 2, 3]], true) := by
  have h := c1_chunk_plan 0 [1, 2, 3]
  refine ⟨?_, ?_, ?_⟩
  · simpa using h.2.1
  · simpa using h.2.2.2.2.1
  · exact h.2.2.2.2.2 (by norm_num [MULTIPART_THRESHOLD])

/-- C2 — If some `upload_part` call of a multipart upload fails
mid-sequence, the trace contains exactly one `abort_multipart_upload`
call for that upload id and no `complete_multipart_upload` call for it;
and whatever the outcome, the backend is left holding no incomplete
(pending) multipart session after the trace. -/
theorem c2_abort_on_failure (uid ps : Nat) (data : List Nat) (partFails : Nat → Bool) :
    ((multipart_upload uid ps data partFails).2 = false →
      abortCount uid (multipart_upload uid ps data partFails).1 = 1 ∧
      completeCount uid (multipart_upload uid ps data partFails).1 = 0) ∧
    (runCalls Backend.init (multipart_upload uid ps data partFails).1).pending = none := by
  have hshape := uploadPartsLoop_calls_shape uid ps partFails data 1
  constructor
  · intro hfail
    have hko : (uploadPartsLoop uid ps partFails data 1).2.2 = false := by
      unfold multipart_upload at hfail
      by_cases hc : (uploadPartsLoop uid ps partFails data 1).2.2
      · simp [hc] at hfail
      · simpa using hc
    unfold multipart_upload
    simp only [hko, Bool.false_eq_true, if_false]
    constructor
    · rw [abortCount_of_parts uid _ hshape]
      simp [abortCount, List.filter_singleton]
    · rw [completeCount_of_parts uid _ hshape]
      simp [completeCount, List.filter_singleton]
  · rw [runCalls_multipart]
    by_cases hc : (uploadPartsLoop uid ps partFails data 1).2.2 <;> simp [hc]

/-- Witness for C2: a two-byte upload with part size 1 whose second
part-upload call raises ends with exactly one abort, no completion, and
no pending multipart session on the backend. -/
theorem c2_abort_on_failure_witness :
    abortCount 5 (multipart_upload 5 1 [9, 8] (fun pn => pn == 2)).1 = 1 ∧
    completeCount 5 (multipart_upload 5 1 [9, 8] (fun pn => pn == 2)).1 = 0 ∧
    (runCalls Backend.init (multipart_upload 5 1 [9, 8] (fun pn => pn == 2)).1).pending
      = none := by
  have h := c2_abort_on_failure 5 1 [9, 8] (fun pn => pn == 2)
  have hf : (multipart_upload 5 1 [9, 8] (fun pn => pn == 2)).2 = false := by
    rw [multipart_upload]
    rw [uploadPartsLoop]
    norm_num
    rw [uploadPartsLoop]
    norm_num
    simp
  exact ⟨(h.1 hf).1, (h.1 hf).2, h.2⟩

/-! ## Ranged download (`S3Manager.download_file`,
`HighPerformanceS3.download_file_chunked`)

The function probes the object size (`head_object`), then loops issuing
ranged `get_object` reads of at most `CHUNK_SIZE` bytes, writing each
chunk to the destination file.  On any exception the partially written
destination file is removed (`os.remove`) and the exception re-raised.
The Python loop `while bytes_downloaded < file_size` does not advance if
a read returns zero bytes, so the model carries fuel and reports such a
run as `hang` (the code loops forever there; it is not an exit path). -/

/-- How a download run ends: normal return, exception raised (after the
cleanup handler ran), or the loop never terminating. -/
inductive DlOutcome where
  | ok
  | err
  | hang
deriving DecidableEq, Repr

/-- The ranged-read loop.  `getRange start endB` models
`get_object(Range=f'bytes={start}-{endB}')`; `acc` is the content written
to the destination so far. -/
def dlLoop (getRange : Nat → Nat → Except Unit (List Nat)) (size : Nat) :
    Nat → Nat → List Nat → List Nat × DlOutcome
  | 0, pos, acc => if pos < size then (acc, DlOutcome.hang) else (acc, DlOutcome.ok)
  | fuel+1, pos, acc =>
      if pos < size then
        match getRange pos (min (pos + CHUNK_SIZE - 1) (size - 1)) with
        | Except.error _ => (acc, DlOutcome.err)
        | Except.ok chunk => dlLoop getRange size fuel (pos + chunk.length) (acc ++ chunk)
      else (acc, DlOutcome.ok)

/-- `S3Manager.download_file`: on any exception (failed size probe or
failed ranged read) the partial destination file is removed before the
exception propagates, so the first component (the destination file's
content, `none` = no file on disk) is `none` whenever the outcome is
`err`. -/
def download_file (head : Except Unit Nat)
    (getRange : Nat → Nat → Except Unit (List Nat)) :
    Option (List Nat) × DlOutcome :=
  match head with
  | Except.error _ => (none, DlOutcome.err)
  | Except.ok size =>
      match dlLoop getRange size size 0 [] with
      | (acc, DlOutcome.ok) => (some acc, DlOutcome.ok)
      | (_, DlOutcome.err) => (none, DlOutcome.err)
      | (acc, DlOutcome.hang) => (some acc, DlOutcome.hang)

/-- C3 — Whenever a download run ends in an error (a ranged read or the
size probe raised), the partially written destination file has been
removed before the error surfaces: no error exit path leaves a partial
file on disk. -/
theorem c3_no_partial_file_on_error (head : Except Unit Nat)
    (getRange : Nat → Nat → Except Unit (List Nat))
    (h : (download_file head getRange).2 = DlOutcome.err) :
    (download_file head getRange).1 = none := by
  unfold download_file at h ⊢
  match head with
  | Except.error e => rfl
  | Except.ok size =>
      match hdl : dlLoop getRange size size 0 [] with
      | (acc, DlOutcome.ok) => simp [hdl] at h
      | (acc, DlOutcome.err) => simp [hdl]
      | (acc, DlOutcome.hang) => simp [hdl] at h

/-- Witness for C3: a five-byte object whose first ranged read fails
leaves no destination file behind. -/
theorem c3_no_partial_file_on_error_witness :
    (download_file (Except.ok 5) (fun _ _ => Except.error ())).2 = DlOutcome.err ∧
    (download_file (Except.ok 5) (fun _ _ => Except.error ())).1 = none := by
  refine ⟨rfl, ?_⟩
  exact c3_no_partial_file_on_error (Except.ok 5) (fun _ _ => Except.error ()) rfl

/-! ## Round trip (C4) -/

/-- A backend that holds `stored` and answers every ranged read with
exactly the requested byte range (HTTP `Range` is inclusive on both
ends). -/
def exactRange (stored : List Nat) (start endB : Nat) : Except Unit (List Nat) :=
  Except.ok ((stored.drop start).take (endB + 1 - start))

theorem take_min_length (l : List Nat) (n : Nat) :
    l.take (min n l.length) = l.take n := by
  rcases Nat.le_total n l.length with h | h
  · rw [Nat.min_eq_left h]
  · rw [Nat.min_eq_right h, List.take_length, List.take_of_length_le h]

/-- With exact ranged reads the download loop terminates normally and
appends exactly the remaining bytes of the stored object. -/
theorem dlLoop_exact (stored : List Nat) :
    ∀ fuel pos acc, stored.length - pos ≤ fuel →
      dlLoop (exactRange stored) stored.length fuel pos acc
        = (acc ++ stored.drop pos, DlOutcome.ok) := by
  intro fuel
  induction fuel with
  | zero =>
    intro pos acc hf
    have hge : stored.length ≤ pos := by omega
    unfold dlLoop
    rw [if_neg (by omega)]
    rw [List.drop_of_length_le hge]
    simp
  | succ fuel ih =>
    intro pos acc hf
    unfold dlLoop
    by_cases hlt : pos < stored.length
    · rw [if_pos hlt]
      unfold exactRange
      have hCS : 0 < CHUNK_SIZE := by unfold CHUNK_SIZE; omega
      set n := min (pos + CHUNK_SIZE - 1) (stored.length - 1) + 1 - pos with hn
      have hn1 : 1 ≤ n := by omega
      set chunk := (stored.drop pos).take n with hchunk
      have hLlen : chunk.length = min n (stored.length - pos) := by
        rw [hchunk, List.length_take, List.length_drop]
      have hL1 : 1 ≤ chunk.length := by
        rw [hLlen]; omega
      have hrec := ih (pos + chunk.length) (acc ++ chunk) (by omega)
      show dlLoop (exactRange stored) stored.length fuel (pos + chunk.length) (acc ++ chunk)
          = (acc ++ stored.drop pos, DlOutcome.ok)
      rw [hrec]
      have hsplit : chunk ++ stored.drop (pos + chunk.length) = stored.drop pos := by
        have hdd : stored.drop (pos + chunk.length) = (stored.drop pos).drop chunk.length := by
          rw [List.drop_drop, Nat.add_comm]
        rw [hdd]
        have htake : chunk = (stored.drop pos).take chunk.length := by
          rw [hLlen, hchunk]
          rw [show min n (stored.length - pos) = min n (stored.drop pos).length by
            rw [List.length_drop]]
          rw [take_min_length]
        have hcong : chunk ++ (stored.drop pos).drop chunk.length
            = (stored.drop pos).take chunk.length ++ (stored.drop pos).drop chunk.length :=
          congrArg (fun l => l ++ (stored.drop pos).drop chunk.length) htake
        rw [hcong]
        exact List.take_append_drop _ _
      rw [← hsplit]
      simp [List.append_assoc]
    · rw [if_neg hlt]
      rw [List.drop_of_length_le (by omega)]
      simp

/-- C4 — Round trip: uploading a file through `S3Manager.upload_file`
(single put or multipart, depending on size) leaves the backend storing
some object, and downloading that object through the sequential ranged
reads of `S3Manager.download_file` — under the hypothesis that every
backend call succeeds and each ranged read returns exactly the requested
stored bytes — produces a destination file byte-identical to the
original data. -/
theorem c4_roundtrip (uid : Nat) (data : List Nat) :
    (match (runCalls Backend.init (upload_file uid data (fun _ => false)).1).stored with
     | some o => download_file (Except.ok o.length) (exactRange o)
     | none => (none, DlOutcome.err))
      = (some data, DlOutcome.ok) := by
  have hstored : (runCalls Backend.init (upload_file uid data (fun _ => false)).1).stored
      = some data := by
    unfold upload_file
    by_cases hth : data.length > MULTIPART_THRESHOLD
    · rw [if_pos hth]
      have hps : part_size data.length ≠ 0 := by
        have h5 : 5 * 1024 * 1024 ≤ part_size data.length := by
          unfold part_size MIN_PART_SIZE CHUNK_SIZE
          omega
        omega
      rw [runCalls_multipart]
      have hloop := uploadPartsLoop_noFail uid (part_size data.length) data 1
      rw [if_pos hloop.1]
      rw [hloop.2.1, chunksOf_flatten _ data hps]
    · rw [if_neg hth]
      simp [runCalls, applyCall, Backend.init]
  rw [hstored]
  show download_file (Except.ok data.length) (exactRange data) = (some data, DlOutcome.ok)
  unfold download_file
  simp only [dlLoop_exact data data.length 0 [] (by omega)]
  simp

/-! ## `utils/security.py` — token issue/verify

Strings are modelled as `List Char`.  The keyed HMAC-SHA256 hexdigest is
abstracted as an arbitrary function `sig : List Char → List Char`; the
only property of the real hexdigest the proofs use is that its output
contains no `':'` (it is lowercase hex), which appears as an explicit
hypothesis.  `hmac.compare_digest` on equal-visibility strings is string
equality. -/

/-- Python's decimal digit characters, `str(n)[i]`. -/
def digitChar (d : Nat) : Char := Char.ofNat (48 + d)

/-- Digits of a positive number, most significant first (empty for 0). -/
def reprCore (n : Nat) : List Char :=
  if n = 0 then [] else reprCore (n / 10) ++ [digitChar (n % 10)]
termination_by n
decreasing_by exact Nat.div_lt_self (Nat.pos_of_ne_zero (by assumption)) (by omega)

/-- Python's `str(n)` for a natural number. -/
def natRepr (n : Nat) : List Char := if n = 0 then ['0'] else reprCore n

def isDigitChar (c : Char) : Bool := 48 ≤ c.toNat && c.toNat ≤ 57

def digitVal (c : Char) : Nat := c.toNat - 48

/-- Left-to-right accumulator pass of Python's `int(s)` on a digit string. -/
def parseCore : Nat → List Char → Option Nat
  | acc, [] => some acc
  | acc, c :: rest =>
      if isDigitChar c then parseCore (acc * 10 + digitVal c) rest else none

/-- Python's `int(s)` on a non-negative decimal string; `none` models the
`ValueError` raised on an empty or non-numeric string. -/
def parseNat (s : List Char) : Option Nat :=
  if s = [] then none else parseCore 0 s

/-- Python's `s.split(':')`. -/
def splitColon : List Char → List (List Char)
  | [] => [[]]
  | c :: rest =>
      if c = ':' then [] :: splitColon rest
      else
        match splitColon rest with
        | [] => [[c]]
        | g :: gs => (c :: g) :: gs

/-- The verifier's secret plus the abstract keyed-MAC hexdigest. -/
structure SecurityManager where
  sig : List Char → List Char

/-- `SecurityManager.generate_token`: builds
`f"{user_id}:{filename}:{timestamp}"` with
`timestamp = str(int(time.time() + expires_in))` and appends the
signature: `f"{data}:{signature}"`. -/
def SecurityManager.generate_token (m : SecurityManager) (user_id : Nat)
    (filename : List Char) (now expires_in : Nat) : List Char :=
  let timestamp := natRepr (now + expires_in)
  let data := natRepr user_id ++ ':' :: (filename ++ ':' :: timestamp)
  data ++ ':' :: m.sig data

/-- `SecurityManager.verify_token`: split on `':'`, require exactly four
fields, recompute the signature over the first three, compare, reject if
`int(expiry) < time.time()`; every failure (including the exceptions
raised by `int(...)` on non-numeric fields, caught by the bare
`except`) returns `None`. -/
def SecurityManager.verify_token (m : SecurityManager) (token : List Char)
    (now : Nat) : Option (Nat × List Char) :=
  match splitColon token with
  | [user_id, filename, expiry, signature] =>
      let data := user_id ++ ':' :: (filename ++ ':' :: expiry)
      if signature = m.sig data then
        match parseNat expiry with
        | none => none
        | some e =>
            if e < now then none
            else
              match parseNat user_id with
              | none => none
              | some u => some (u, filename)
      else none
  | _ => none

theorem digitChar_digit (d : Nat) (h : d < 10) :
    isDigitChar (digitChar d) = true ∧ digitVal (digitChar d) = d ∧ digitChar d ≠ ':' := by
  interval_cases d <;> refine ⟨by decide, by decide, by decide⟩

theorem colon_not_mem_reprCore (n : Nat) : ':' ∉ reprCore n := by
  induction n using reprCore.induct with
  | case1 => rw [reprCore]; simp
  | case2 n hn ih =>
    rw [reprCore, if_neg hn]
    intro hmem
    rcases List.mem_append.mp hmem with h | h
    · exact ih h
    · rcases List.mem_singleton.mp h with h
      exact (digitChar_digit (n % 10) (Nat.mod_lt n (by omega))).2.2 h.symm

theorem colon_not_mem_natRepr (n : Nat) : ':' ∉ natRepr n := by
  unfold natRepr
  by_cases h : n = 0
  · simp [h]
  · rw [if_neg h]
    exact colon_not_mem_reprCore n

theorem parseCore_nil (acc : Nat) : parseCore acc [] = some acc := rfl

theorem parseCore_cons (acc : Nat) (c : Char) (l : List Char) :
    parseCore acc (c :: l) =
      if isDigitChar c then parseCore (acc * 10 + digitVal c) l else none := rfl

theorem parseCore_append (xs ys : List Char) :
    ∀ acc, parseCore acc (xs ++ ys) =
      match parseCore acc xs with
      | some a => parseCore a ys
      | none => none := by
  induction xs with
  | nil => intro acc; simp [parseCore_nil]
  | cons c rest ih =>
    intro acc
    rw [List.cons_append, parseCore_cons, parseCore_cons]
    by_cases hd : isDigitChar c
    · simp only [hd, if_true]
      exact ih (acc * 10 + digitVal c)
    · simp [hd]

theorem parseCore_reprCore (n : Nat) :
    ∀ acc, parseCore acc (reprCore n) =
      some (acc * 10 ^ (reprCore n).length + n) := by
  induction n using reprCore.induct with
  | case1 =>
    intro acc
    rw [reprCore]
    simp [parseCore]
  | case2 n hn ih =>
    intro acc
    rw [reprCore, if_neg hn]
    rw [parseCore_append]
    rw [ih acc]
    have hdig := digitChar_digit (n % 10) (Nat.mod_lt n (by omega))
    show parseCore (acc * 10 ^ (reprCore (n / 10)).length + n / 10) [digitChar (n % 10)]
        = some (acc * 10 ^ (reprCore (n / 10) ++ [digitChar (n % 10)]).length + n)
    rw [parseCore_cons]
    simp only [hdig.1, if_true, hdig.2.1, parseCore_nil]
    congr 1
    rw [List.length_append, List.length_singleton, pow_succ]
    have hmod := Nat.div_add_mod n 10
    ring_nf
    omega

theorem reprCore_ne_nil (n : Nat) (hn : n ≠ 0) : reprCore n ≠ [] := by
  rw [reprCore, if_neg hn]
  simp

theorem parseNat_natRepr (n : Nat) : parseNat (natRepr n) = some n := by
  unfold natRepr
  by_cases h : n = 0
  · subst h
    decide
  · rw [if_neg h]
    unfold parseNat
    rw [if_neg (reprCore_ne_nil n h)]
    rw [parseCore_reprCore n 0]
    simp

theorem splitColon_cons (c : Char) (rest : List Char) :
    splitColon (c :: rest) =
      if c = ':' then [] :: splitColon rest
      else
        match splitColon rest with
        | [] => [[c]]
        | g :: gs => (c :: g) :: gs := rfl

theorem splitColon_no_colon (s : List Char) (h : ':' ∉ s) : splitColon s = [s] := by
  induction s with
  | nil => rfl
  | cons c rest ih =>
    have hc : c ≠ ':' := fun hcc => h (hcc ▸ List.mem_cons_self c rest)
    have hrest := ih (fun hm => h (List.mem_cons_of_mem c hm))
    rw [splitColon_cons, if_neg hc, hrest]

theorem splitColon_append_colon (xs ys : List Char) (h : ':' ∉ xs) :
    splitColon (xs ++ ':' :: ys) = xs :: splitColon ys := by
  induction xs with
  | nil =>
    show splitColon (':' :: ys) = [] :: splitColon ys
    rw [splitColon_cons]
    simp
  | cons c rest ih =>
    have hc : c ≠ ':' := fun hcc => h (hcc ▸ List.mem_cons_self c rest)
    have hrest := ih (fun hm => h (List.mem_cons_of_mem c hm))
    show splitColon (c :: (rest ++ ':' :: ys)) = (c :: rest) :: splitColon ys
    rw [splitColon_cons, if_neg hc, hrest]

theorem generate_token_split (m : SecurityManager) (uid : Nat) (filename : List Char)
    (now ttl : Nat) (hfn : ':' ∉ filename) (hsig : ∀ s, ':' ∉ m.sig s) :
    splitColon (m.generate_token uid filename now ttl) =
      [natRepr uid, filename, natRepr (now + ttl),
       m.sig (natRepr uid ++ ':' :: (filename ++ ':' :: natRepr (now + ttl)))] := by
  unfold SecurityManager.generate_token
  rw [show (natRepr uid ++ ':' :: (filename ++ ':' :: natRepr (now + ttl))) ++
        ':' :: m.sig (natRepr uid ++ ':' :: (filename ++ ':' :: natRepr (now + ttl)))
      = natRepr uid ++ ':' :: (filename ++ ':' ::
          (natRepr (now + ttl) ++ ':' ::
            m.sig (natRepr uid ++ ':' :: (filename ++ ':' :: natRepr (now + ttl)))))
    by simp [List.append_assoc]]
  rw [splitColon_append_colon _ _ (colon_not_mem_natRepr uid)]
  rw [splitColon_append_colon _ _ hfn]
  rw [splitColon_append_colon _ _ (colon_not_mem_natRepr _)]
  rw [splitColon_no_colon _ (hsig _)]

/-- C5 (amended) — Provided the object name contains no `':'` delimiter
(and the MAC hexdigest is, as lowercase hex, colon-free), verifying a
token immediately after issuance returns exactly the issuing
`(identity, object name)` pair, and verifying the same token at any time
strictly past `issued_at + ttl` returns the invalid outcome `None`. -/
theorem c5_token_roundtrip (m : SecurityManager) (uid : Nat) (filename : List Char)
    (now ttl : Nat) (httl : 0 < ttl) (hfn : ':' ∉ filename)
    (hsig : ∀ s, ':' ∉ m.sig s) :
    m.verify_token (m.generate_token uid filename now ttl) now = some (uid, filename) ∧
    (∀ later, now + ttl < later →
      m.verify_token (m.generate_token uid filename now ttl) later = none) := by
  have hsplit := generate_token_split m uid filename now ttl hfn hsig
  constructor
  · unfold SecurityManager.verify_token
    rw [hsplit]
    have hnn : ¬ now + ttl < now := by omega
    simp [parseNat_natRepr, hnn]
  · intro later hlater
    unfold SecurityManager.verify_token
    rw [hsplit]
    simp [parseNat_natRepr, hlater]

/-- Witness for the amended C5 at concrete values: identity 3, name
`"f"`, issued at time 2 with ttl 5; verification at time 2 yields
`(3, "f")` and at time 8 (past `2 + 5`) yields `None`. -/
theorem c5_token_roundtrip_witness :
    SecurityManager.verify_token ⟨fun _ => ['a']⟩
      (SecurityManager.generate_token ⟨fun _ => ['a']⟩ 3 ['f'] 2 5) 2 = some (3, ['f']) ∧
    SecurityManager.verify_token ⟨fun _ => ['a']⟩
      (SecurityManager.generate_token ⟨fun _ => ['a']⟩ 3 ['f'] 2 5) 8 = none := by
  have h := c5_token_roundtrip ⟨fun _ => ['a']⟩ 3 ['f'] 2 5 (by decide)
    (by decide) (fun s => by show ':' ∉ ['a']; decide)
  exact ⟨h.1, h.2 8 (by decide)⟩

/-- C5 as literally stated is false: for an object name containing the
`':'` delimiter — here `"a:b"` — the issued token splits into more than
four fields, so verification immediately after issuance returns `None`
rather than the issued pair.  (Concrete MAC stub: the constant hexdigest
`"a"`; the failure is independent of the MAC, since the field-count
check fails first.) -/
theorem c5_counterexample :
    SecurityManager.verify_token ⟨fun _ => ['a']⟩
      (SecurityManager.generate_token ⟨fun _ => ['a']⟩ 1 ['a', ':', 'b'] 2 5) 2
      = none := by
  have h1 : natRepr 1 = ['1'] := by
    unfold natRepr
    rw [if_neg (by omega), reprCore, if_neg (by omega)]
    norm_num
    rw [reprCore]
    decide
  have h7 : natRepr 7 = ['7'] := by
    unfold natRepr
    rw [if_neg (by omega), reprCore, if_neg (by omega)]
    norm_num
    rw [reprCore]
    decide
  unfold SecurityManager.generate_token SecurityManager.verify_token
  rw [show (2 : Nat) + 5 = 7 by norm_num, h1, h7]
  decide

/-- C8 — Every failed verification — wrong number of `':'`-separated
fields, non-numeric expiry field, signature mismatch, or expired token —
returns the same single opaque outcome `None`; no return value
distinguishes which check failed. -/
theorem c8_opaque_invalid (m : SecurityManager) (token : List Char) (now : Nat) :
    ((splitColon token).length ≠ 4 → m.verify_token token now = none) ∧
    (∀ uid fn ex sg, splitColon token = [uid, fn, ex, sg] →
      ((parseNat ex = none → m.verify_token token now = none) ∧
       (sg ≠ m.sig (uid ++ ':' :: (fn ++ ':' :: ex)) →
          m.verify_token token now = none) ∧
       (∀ e, parseNat ex = some e → e < now → m.verify_token token now = none))) := by
  constructor
  · intro hlen
    unfold SecurityManager.verify_token
    rcases hs : splitColon token with _ | ⟨a, _ | ⟨b, _ | ⟨c, _ | ⟨d, _ | ⟨e, l⟩⟩⟩⟩⟩ <;>
      first
        | rfl
        | (exfalso; apply hlen; rw [hs]; rfl)
  · intro uid fn ex sg h4
    refine ⟨?_, ?_, ?_⟩
    · intro hex
      unfold SecurityManager.verify_token
      rw [h4]
      by_cases hsg : sg = m.sig (uid ++ ':' :: (fn ++ ':' :: ex))
      · simp [hsg, hex]
      · simp [hsg]
    · intro hsg
      unfold SecurityManager.verify_token
      rw [h4]
      simp [hsg]
    · intro e he hlt
      unfold SecurityManager.verify_token
      rw [h4]
      by_cases hsg : sg = m.sig (uid ++ ':' :: (fn ++ ':' :: ex))
      · simp [hsg, he, hlt]
      · simp [hsg]

/-- Witness for C8: concrete malformed (one field), non-numeric-expiry,
signature-mismatched and expired tokens all verify to `None`. -/
theorem c8_opaque_invalid_witness :
    SecurityManager.verify_token ⟨fun _ => ['s']⟩ ['a'] 0 = none ∧
    SecurityManager.verify_token ⟨fun _ => ['s']⟩
      ['1', ':', 'f', ':', 'x', ':', 's'] 0 = none ∧
    SecurityManager.verify_token ⟨fun _ => ['t']⟩
      ['1', ':', 'f', ':', '9', ':', 's'] 0 = none ∧
    SecurityManager.verify_token ⟨fun _ => ['s']⟩
      ['1', ':', 'f', ':', '0', ':', 's'] 5 = none := by
  refine ⟨?_, ?_, ?_, ?_⟩
  · exact (c8_opaque_invalid ⟨fun _ => ['s']⟩ ['a'] 0).1 (by decide)
  · exact ((c8_opaque_invalid ⟨fun _ => ['s']⟩ ['1', ':', 'f', ':', 'x', ':', 's'] 0).2
      ['1'] ['f'] ['x'] ['s'] (by decide)).1 (by decide)
  · exact ((c8_opaque_invalid ⟨fun _ => ['t']⟩ ['1', ':', 'f', ':', '9', ':', 's'] 0).2
      ['1'] ['f'] ['9'] ['s'] (by decide)).2.1 (by decide)
  · exact ((c8_opaque_invalid ⟨fun _ => ['s']⟩ ['1', ':', 'f', ':', '0', ':', 's'] 5).2
      ['1'] ['f'] ['0'] ['s'] (by decide)).2.2 0 (by decide) (by decide)

/-! ## `SecurityManager.sanitize_filename` (C9)

The method first strips `'../'` and `'./'` (Python `str.replace` with
the empty replacement: left-to-right, non-overlapping), then keeps only
characters passing `c.isalnum() or c in '._- '`, and finally — only when
the remaining name exceeds 200 characters — calls `os.path.splitext`.
`utils/security.py` never imports `os`, so that branch raises
`NameError`, modelled as `Except.error ()`.  Python's Unicode-aware
`str.isalnum` is abstracted as a parameter `isAlnum`. -/

/-- Whether `pat` occurs at the start of `s`. -/
def matchesAt : List Char → List Char → Bool
  | [], _ => true
  | _ :: _, [] => false
  | p :: ps, c :: cs => p == c && matchesAt ps cs

/-- Python `s.replace(pat, '')`: remove all non-overlapping occurrences
of `pat`, scanning left to right. -/
def removeAll (pat : List Char) (s : List Char) : List Char :=
  match s with
  | [] => []
  | c :: rest =>
      if h : pat ≠ [] ∧ matchesAt pat (c :: rest) then
        removeAll pat ((c :: rest).drop pat.length)
      else c :: removeAll pat rest
termination_by s.length
decreasing_by
  · obtain ⟨hpat, -⟩ := h
    have hl : 0 < pat.length := List.length_pos.mpr hpat
    simp
    omega
  · simp

/-- `SecurityManager.sanitize_filename`; `Except.error ()` is the
`NameError` raised by the truncation branch (`os` is never imported). -/
def sanitize_filename (isAlnum : Char → Bool) (filename : List Char) :
    Except Unit (List Char) :=
  let f1 := removeAll ['.', '.', '/'] filename
  let f2 := removeAll ['.', '/'] f1
  let f3 := f2.filter (fun c => isAlnum c || c ∈ ['.', '_', '-', ' '])
  if f3.length > 200 then Except.error () else Except.ok f3

theorem removeAll_length_le (pat : List Char) (s : List Char) :
    (removeAll pat s).length ≤ s.length := by
  induction s using removeAll.induct pat with
  | case1 => rw [removeAll]
  | case2 c rest h ih =>
    rw [removeAll, dif_pos h]
    have hlen : ((c :: rest).drop pat.length).length ≤ (c :: rest).length := by
      simp
    exact le_trans ih hlen
  | case3 c rest h ih =>
    rw [removeAll, dif_neg h]
    simpa using ih

/-- If `pat` begins with a character that never occurs in `s`, the
replacement leaves `s` unchanged. -/
theorem removeAll_of_head_not_mem (pat s : List Char) (c0 : Char)
    (hpat : pat.head? = some c0) (h : c0 ∉ s) : removeAll pat s = s := by
  induction s with
  | nil => rw [removeAll]
  | cons c rest ih =>
    have hc : c ≠ c0 := fun hcc => h (hcc ▸ List.mem_cons_self c rest)
    have hnp : ¬ (pat ≠ [] ∧ matchesAt pat (c :: rest) = true) := by
      rintro ⟨hne, hpre⟩
      match pat, hpat, hpre with
      | p0 :: ptl, hpat, hpre =>
          have hp0 : p0 = c0 := by simpa using hpat
          have hand : (p0 == c && matchesAt ptl rest) = true := hpre
          rw [Bool.and_eq_true] at hand
          have hpc : p0 = c := by simpa using hand.1
          exact hc (by rw [← hpc, hp0])
    rw [removeAll, dif_neg hnp]
    rw [ih (fun hm => h (List.mem_cons_of_mem c hm))]

/-- C9 (amended) — `SecurityManager.sanitize_filename` returns normally
for every input whose sanitized form (after stripping `'../'` and
`'./'` and filtering to the safe characters) has at most 200
characters — in particular for every input of length at most 200 — and
its result contains only characters accepted by the `isalnum`-or-`'._- '`
filter; it raises `NameError` (the module never imports `os`) exactly
when the sanitized form exceeds 200 characters, which requires, but is
not implied by, the input being longer than 200 characters. -/
theorem c9_sanitize (isAlnum : Char → Bool) (filename : List Char) :
    (filename.length ≤ 200 →
      ∃ out, sanitize_filename isAlnum filename = Except.ok out) ∧
    (∀ out, sanitize_filename isAlnum filename = Except.ok out →
      out.length ≤ 200 ∧
        ∀ c ∈ out, isAlnum c = true ∨ c ∈ ['.', '_', '-', ' ']) ∧
    (sanitize_filename isAlnum filename = Except.error () ↔
      200 < ((removeAll ['.', '/'] (removeAll ['.', '.', '/'] filename)).filter
        (fun c => isAlnum c || c ∈ ['.', '_', '-', ' '])).length) := by
  have hlen :
      ((removeAll ['.', '/'] (removeAll ['.', '.', '/'] filename)).filter
        (fun c => isAlnum c || c ∈ ['.', '_', '-', ' '])).length ≤ filename.length := by
    calc ((removeAll ['.', '/'] (removeAll ['.', '.', '/'] filename)).filter
            (fun c => isAlnum c || c ∈ ['.', '_', '-', ' '])).length
        ≤ (removeAll ['.', '/'] (removeAll ['.', '.', '/'] filename)).length :=
          List.length_filter_le _ _
      _ ≤ (removeAll ['.', '.', '/'] filename).length := removeAll_length_le _ _
      _ ≤ filename.length := removeAll_length_le _ _
  refine ⟨?_, ?_, ?_⟩
  · intro h200
    unfold sanitize_filename
    rw [if_neg (by omega)]
    exact ⟨_, rfl⟩
  · intro out hout
    unfold sanitize_filename at hout
    by_cases hc : 200 <
        ((removeAll ['.', '/'] (removeAll ['.', '.', '/'] filename)).filter
          (fun c => isAlnum c || c ∈ ['.', '_', '-', ' '])).length
    · rw [if_pos hc] at hout
      exact absurd hout (by simp)
    · rw [if_neg hc] at hout
      obtain rfl : ((removeAll ['.', '/'] (removeAll ['.', '.', '/'] filename)).filter
          (fun c => isAlnum c || c ∈ ['.', '_', '-', ' '])) = out := by
        simpa using hout
      constructor
      · omega
      · intro c hcmem
        have := List.of_mem_filter hcmem
        rcases Bool.or_eq_true _ _ |>.mp this with h | h
        · exact Or.inl h
        · exact Or.inr (by simpa using h)
  · constructor
    · intro herr
      unfold sanitize_filename at herr
      by_cases hc : 200 <
          ((removeAll ['.', '/'] (removeAll ['.', '.', '/'] filename)).filter
            (fun c => isAlnum c || c ∈ ['.', '_', '-', ' '])).length
      · exact hc
      · rw [if_neg hc] at herr
        exact absurd herr (by simp)
    · intro hc
      unfold sanitize_filename
      rw [if_pos hc]

/-- Witness for C9 at a concrete input: `"a?b"` (3 ≤ 200 characters)
sanitizes normally, and the result holds only safe characters. -/
theorem c9_sanitize_witness :
    (∃ out, sanitize_filename Char.isAlphanum ['a', '?', 'b'] = Except.ok out) ∧
    (∀ out, sanitize_filename Char.isAlphanum ['a', '?', 'b'] = Except.ok out →
      out.length ≤ 200 ∧
        ∀ c ∈ out, Char.isAlphanum c = true ∨ c ∈ ['.', '_', '-', ' ']) := by
  have h := c9_sanitize Char.isAlphanum ['a', '?', 'b']
  exact ⟨h.1 (by decide), h.2.1⟩

/-- C9 as literally stated is false: an input of 201 characters need not
raise `NameError` — 201 slashes sanitize to the empty name (the
character filter removes every `'/'`), so the length-200 truncation
branch that would hit the missing `os` import is never reached and the
function returns normally. -/
theorem c9_counterexample :
    200 < (List.replicate 201 '/').length ∧
    sanitize_filename Char.isAlphanum (List.replicate 201 '/') = Except.ok [] := by
  constructor
  · rw [List.length_replicate]
    omega
  · have hnm : '.' ∉ List.replicate 201 '/' := by
      intro hm
      have := List.eq_of_mem_replicate hm
      simp at this
    have h1 : removeAll ['.', '.', '/'] (List.replicate 201 '/') = List.replicate 201 '/' :=
      removeAll_of_head_not_mem _ _ '.' rfl hnm
    have h2 : removeAll ['.', '/'] (List.replicate 201 '/') = List.replicate 201 '/' :=
      removeAll_of_head_not_mem _ _ '.' rfl hnm
    have h3 : (List.replicate 201 '/').filter
        (fun c => Char.isAlphanum c || c ∈ ['.', '_', '-', ' ']) = [] := by
      rw [List.filter_eq_nil_iff]
      intro c hm
      rw [List.eq_of_mem_replicate hm]
      decide
    unfold sanitize_filename
    simp only [h1, h2, h3]
    simp

/-! ## Rate limiting (C6)

Two variants exist in the repository.  `bot.py`'s `is_rate_limited`
prunes the window, denies at the limit, and records the current
timestamp when allowing.  The `deepseek_python_20250927_ffcff5.py`
variant prunes and tests but never appends a timestamp — and no caller
in that file appends either — so its window stays empty forever.
The result is `(denied?, new window)`; `user_requests[user_id]` is the
window list, time in seconds. -/

/-- `bot.py` `is_rate_limited`. -/
def is_rate_limited_bot (window : List Nat) (now limit period : Nat) :
    Bool × List Nat :=
  let pruned := window.filter (fun t => now - t < period)
  if limit ≤ pruned.length then (true, pruned)
  else (false, pruned ++ [now])

/-- `deepseek_python_20250927_ffcff5.py` `is_rate_limited`: same pruning
and test, but no timestamp is ever recorded. -/
def is_rate_limited_ds (window : List Nat) (now limit period : Nat) :
    Bool × List Nat :=
  let pruned := window.filter (fun t => now - t < period)
  (limit ≤ pruned.length, pruned)

/-- Run a sequence of admission checks for one identity through a rate
limiter, threading the stored window; returns the denied/allowed verdict
of each check. -/
def runChecks (f : List Nat → Nat → Bool × List Nat) (times : List Nat) :
    List Bool × List Nat :=
  times.foldl
    (fun acc t =>
      let r := f acc.2 t
      (acc.1 ++ [r.1], r.2))
    ([], [])

/-- C6 — With limit 10 per 60-second period, eleven checks by the same
identity at the same instant: the `deepseek_python_20250927_ffcff5.py`
variant allows all eleven (its window never records a timestamp, so the
denial branch is unreachable), while `bot.py`'s variant allows the first
ten and denies the eleventh as the claim states; `bot.py`'s limiter also
allows again a full period after the first call. -/
theorem c6_rate_limiter_divergence :
    (runChecks (fun w t => is_rate_limited_ds w t 10 60) (List.replicate 11 0)).1
      = List.replicate 11 false ∧
    (runChecks (fun w t => is_rate_limited_bot w t 10 60) (List.replicate 11 0)).1
      = List.replicate 10 false ++ [true] ∧
    (runChecks (fun w t => is_rate_limited_bot w t 10 60)
        (List.replicate 10 0 ++ [30, 60])).1
      = List.replicate 10 false ++ [true, false] := by
  refine ⟨by decide, by decide, by decide⟩

/-! ## Progress throttling (C7)

`progress.py`.  Times in milliseconds so that sub-second gaps are
expressible. -/

/-- `progress_for_pyrogram` publishes (attempts the message edit) iff at
least one second has elapsed **since the transfer started**: the code
computes `diff = now - start_time` and returns early when `diff < 1`;
it never tracks the time of the previous update. -/
def pyrogram_should_publish (start now : Nat) : Bool :=
  1000 ≤ now - start

/-- `Boto3Progress.__call__`: returns early while less than two seconds
have passed since `_last_update_time`, which is set to `now` after a
publish. -/
def boto3_progress_step (lastUpdate now : Nat) : Bool × Nat :=
  if now - lastUpdate < 2000 then (false, lastUpdate) else (true, now)

/-- C7 — `progress_for_pyrogram` does not throttle consecutive updates:
with the transfer started at time 0, callbacks at 1.0 s and 1.1 s are
both published even though only 0.1 s < 1 s separates them, because the
check compares against `start_time` rather than the last update (the
code's own comment says "Update at most once per second"). -/
theorem c7_pyrogram_publishes_back_to_back :
    pyrogram_should_publish 0 1000 = true ∧
    pyrogram_should_publish 0 1100 = true ∧
    1100 - 1000 < 1000 := by
  refine ⟨by decide, by decide, by decide⟩

/-- `Boto3Progress`, by contrast, does enforce its minimum interval: if
two consecutive callbacks both publish, at least two seconds separate
them. -/
theorem boto3_progress_consecutive_gap (lastUpdate t1 t2 : Nat)
    (h1 : (boto3_progress_step lastUpdate t1).1 = true)
    (h2 : (boto3_progress_step (boto3_progress_step lastUpdate t1).2 t2).1 = true) :
    2000 ≤ t2 - t1 := by
  unfold boto3_progress_step at h1 h2
  by_cases hc : t1 - lastUpdate < 2000
  · rw [if_pos hc] at h1
    simp at h1
  · rw [if_neg hc] at h1 h2
    simp only at h2
    by_cases hc2 : t2 - t1 < 2000
    · rw [if_pos hc2] at h2
      simp at h2
    · omega

/-! ## `HelperFunctions.encode_url` / `decode_url` (C10)

`encode_url` base64url-encodes the UTF-8 bytes of the string and strips
the `'='` padding; `decode_url` restores the padding from the length
modulo 4 and decodes.  Strings are modelled by their UTF-8 byte
sequences (`List Nat`, each < 256) — Python's `str.encode`/`bytes.decode`
round-trip is the identity on them — and the standard library's
`base64.urlsafe_b64encode`/`urlsafe_b64decode` (RFC 4648 §5) are
modelled byte-for-byte below. -/

/-- The urlsafe base64 alphabet. -/
def b64Alphabet : List Char :=
  ['A', 'B', 'C', 'D', 'E', 'F', 'G', 'H', 'I', 'J', 'K', 'L', 'M',
   'N', 'O', 'P', 'Q', 'R', 'S', 'T', 'U', 'V', 'W', 'X', 'Y', 'Z',
   'a', 'b', 'c', 'd', 'e', 'f', 'g', 'h', 'i', 'j', 'k', 'l', 'm',
   'n', 'o', 'p', 'q', 'r', 's', 't', 'u', 'v', 'w', 'x', 'y', 'z',
   '0', '1', '2', '3', '4', '5', '6', '7', '8', '9', '-', '_']

/-- Character for a 6-bit group. -/
def sextetChar (n : Nat) : Char := b64Alphabet.getD (n % 64) 'A'

/-- 6-bit value of an alphabet character. -/
def charSextet (c : Char) : Nat := b64Alphabet.indexOf c

/-- `base64.urlsafe_b64encode`: 3 input bytes become 4 characters; a
final group of 1 or 2 bytes is padded with `'='`. -/
def b64Encode : List Nat → List Char
  | [] => []
  | [a] => [sextetChar (a / 4), sextetChar (a % 4 * 16), '=', '=']
  | [a, b] =>
      [sextetChar (a / 4), sextetChar (a % 4 * 16 + b / 16),
       sextetChar (b % 16 * 4), '=']
  | a :: b :: c :: rest =>
      sextetChar (a / 4) :: sextetChar (a % 4 * 16 + b / 16) ::
      sextetChar (b % 16 * 4 + c / 64) :: sextetChar (c % 64) ::
      b64Encode rest

/-- `base64.urlsafe_b64decode` on correctly padded input. -/
def b64Decode : List Char → List Nat
  | w :: x :: y :: z :: rest =>
      if y = '=' then
        [charSextet w * 4 + charSextet x / 16]
      else if z = '=' then
        [charSextet w * 4 + charSextet x / 16,
         charSextet x % 16 * 16 + charSextet y / 4]
      else
        (charSextet w * 4 + charSextet x / 16) ::
        (charSextet x % 16 * 16 + charSextet y / 4) ::
        (charSextet y % 4 * 64 + charSextet z) :: b64Decode rest
  | _ => []

/-- Python's `s.rstrip(c)` for a single strip character. -/
def rstripEq (c : Char) (s : List Char) : List Char :=
  (s.reverse.dropWhile (fun x => x == c)).reverse

/-- `HelperFunctions.encode_url` on the string's UTF-8 bytes:
`base64.urlsafe_b64encode(url.encode()).decode().rstrip('=')`. -/
def encode_url (bs : List Nat) : List Char :=
  rstripEq '=' (b64Encode bs)

/-- `HelperFunctions.decode_url`: `padding = 4 - len % 4`; if
`padding != 4`, append that many `'='`; then
`base64.urlsafe_b64decode(...).decode()`. -/
def decode_url (s : List Char) : List Nat :=
  if 4 - s.length % 4 ≠ 4 then
    b64Decode (s ++ List.replicate (4 - s.length % 4) '=')
  else b64Decode s

theorem charSextet_sextetChar (n : Nat) (h : n < 64) :
    charSextet (sextetChar n) = n := by
  have hall : ∀ m, m < 64 → charSextet (sextetChar m) = m := by decide
  exact hall n h

theorem sextetChar_ne_pad (n : Nat) : sextetChar n ≠ '=' := by
  have hlt : n % 64 < 64 := Nat.mod_lt n (by omega)
  unfold sextetChar
  have hall : ∀ i, i < 64 → b64Alphabet.getD i 'A' ≠ '=' := by decide
  exact hall _ hlt

theorem b64Decode_b64Encode (bs : List Nat) (h : ∀ b ∈ bs, b < 256) :
    b64Decode (b64Encode bs) = bs := by
  induction bs using b64Encode.induct with
  | case1 => rfl
  | case2 a =>
    have ha : a < 256 := h a (by simp)
    rw [b64Encode]
    rw [b64Decode]
    rw [if_pos rfl]
    rw [charSextet_sextetChar _ (by omega), charSextet_sextetChar _ (by omega)]
    congr 1
    omega
  | case3 a b =>
    have ha : a < 256 := h a (by simp)
    have hb : b < 256 := h b (by simp)
    rw [b64Encode]
    rw [b64Decode]
    rw [if_neg (sextetChar_ne_pad _), if_pos rfl]
    rw [charSextet_sextetChar _ (by omega), charSextet_sextetChar _ (by omega),
      charSextet_sextetChar _ (by omega)]
    have h1 : a / 4 * 4 + (a % 4 * 16 + b / 16) / 16 = a := by omega
    have h2 : (a % 4 * 16 + b / 16) % 16 * 16 + b % 16 * 4 / 4 = b := by omega
    rw [h1, h2]
  | case4 a b c rest ih =>
    have ha : a < 256 := h a (by simp)
    have hb : b < 256 := h b (by simp)
    have hc : c < 256 := h c (by simp)
    have hrest := ih (fun x hx => h x (by simp [hx]))
    rw [b64Encode]
    rw [b64Decode]
    rw [if_neg (sextetChar_ne_pad _), if_neg (sextetChar_ne_pad _)]
    rw [charSextet_sextetChar _ (by omega), charSextet_sextetChar _ (by omega),
      charSextet_sextetChar _ (by omega), charSextet_sextetChar _ (by omega)]
    rw [hrest]
    have h1 : a / 4 * 4 + (a % 4 * 16 + b / 16) / 16 = a := by omega
    have h2 : (a % 4 * 16 + b / 16) % 16 * 16 + (b % 16 * 4 + c / 64) / 4 = b := by omega
    have h3 : (b % 16 * 4 + c / 64) % 4 * 64 + c % 64 = c := by omega
    rw [h1, h2, h3]

/-- The encoder's output is a pad-free body followed by 0, 1 or 2 `'='`,
with total length a multiple of 4. -/
theorem b64Encode_shape (bs : List Nat) :
    ∃ body npad, b64Encode bs = body ++ List.replicate npad '=' ∧
      (∀ ch ∈ body, ch ≠ '=') ∧ npad ≤ 2 ∧ (body.length + npad) % 4 = 0 := by
  induction bs using b64Encode.induct with
  | case1 =>
    exact ⟨[], 0, rfl, by simp, by omega, by simp⟩
  | case2 a =>
    refine ⟨[sextetChar (a / 4), sextetChar (a % 4 * 16)], 2, rfl, ?_, by omega, by simp⟩
    intro ch hch
    rcases List.mem_cons.mp hch with rfl | hch
    · exact sextetChar_ne_pad _
    · rcases List.mem_cons.mp hch with rfl | hch
      · exact sextetChar_ne_pad _
      · simp at hch
  | case3 a b =>
    refine ⟨[sextetChar (a / 4), sextetChar (a % 4 * 16 + b / 16),
             sextetChar (b % 16 * 4)], 1, rfl, ?_, by omega, by simp⟩
    intro ch hch
    simp only [List.mem_cons, List.not_mem_nil, or_false] at hch
    rcases hch with rfl | rfl | rfl <;> exact sextetChar_ne_pad _
  | case4 a b c rest ih =>
    obtain ⟨body, npad, henc, hch, hnp, hmod⟩ := ih
    refine ⟨sextetChar (a / 4) :: sextetChar (a % 4 * 16 + b / 16) ::
            sextetChar (b % 16 * 4 + c / 64) :: sextetChar (c % 64) :: body, npad,
            ?_, ?_, hnp, ?_⟩
    · rw [b64Encode, henc]
      simp
    · intro ch hmem
      simp only [List.mem_cons] at hmem
      rcases hmem with rfl | rfl | rfl | rfl | hmem
      · exact sextetChar_ne_pad _
      · exact sextetChar_ne_pad _
      · exact sextetChar_ne_pad _
      · exact sextetChar_ne_pad _
      · exact hch ch hmem
    · simp only [List.length_cons]
      omega

theorem rstripEq_append_pad (c : Char) (body : List Char) (n : Nat)
    (h : ∀ ch ∈ body, ch ≠ c) :
    rstripEq c (body ++ List.replicate n c) = body := by
  unfold rstripEq
  rw [List.reverse_append, List.reverse_replicate]
  have h1 : ∀ m, List.dropWhile (fun x => x == c) (List.replicate m c ++ body.reverse)
      = List.dropWhile (fun x => x == c) body.reverse := by
    intro m
    induction m with
    | zero => simp
    | succ k ih =>
      rw [List.replicate_succ, List.cons_append, List.dropWhile_cons]
      rw [if_pos (by simp)]
      exact ih
  rw [h1]
  have h2 : List.dropWhile (fun x => x == c) body.reverse = body.reverse := by
    match hb : body.reverse with
    | [] => rfl
    | hd :: tl =>
      have hhd : hd ∈ body := by
        rw [← List.mem_reverse, hb]
        exact List.mem_cons_self _ _
      have hne : (hd == c) = false := by simpa using h hd hhd
      rw [List.dropWhile_cons, hne]
      simp
  rw [h2, List.reverse_reverse]

/-- C10 — For every byte string (every byte < 256),
`decode_url (encode_url bs) = bs`: stripping the base64url padding and
restoring it from the length modulo 4 is lossless, so the web-player URL
round-trip is the identity. -/
theorem c10_url_roundtrip (bs : List Nat) (h : ∀ b ∈ bs, b < 256) :
    decode_url (encode_url bs) = bs := by
  obtain ⟨body, npad, henc, hch, hnp, hmod⟩ := b64Encode_shape bs
  have hstrip : encode_url bs = body := by
    rw [encode_url, henc]
    exact rstripEq_append_pad _ _ _ hch
  rw [hstrip]
  unfold decode_url
  rcases (by omega : npad = 0 ∨ npad = 1 ∨ npad = 2) with h0 | h1 | h2
  · subst h0
    have hm : body.length % 4 = 0 := by omega
    rw [if_neg (by omega)]
    have hbody : body = b64Encode bs := by simpa using henc.symm
    rw [hbody]
    exact b64Decode_b64Encode bs h
  · subst h1
    have hm : body.length % 4 = 3 := by omega
    rw [if_pos (by omega), hm]
    have hbody : body ++ List.replicate (4 - 3) '=' = b64Encode bs := by
      rw [henc]
    rw [hbody]
    exact b64Decode_b64Encode bs h
  · subst h2
    have hm : body.length % 4 = 2 := by omega
    rw [if_pos (by omega), hm]
    have hbody : body ++ List.replicate (4 - 2) '=' = b64Encode bs := by
      rw [henc]
    rw [hbody]
    exact b64Decode_b64Encode bs h

/-- Witness for C10 on the concrete byte string `"hi!"`. -/
theorem c10_url_roundtrip_witness :
    decode_url (encode_url [104, 105, 33]) = [104, 105, 33] :=
  c10_url_roundtrip [104, 105, 33] (by decide)

end WasabiBot
